import Mathlib

/-!
Verification development for a bounded in-process key-value cache with LRU
eviction and per-entry TTL expiry (Go sources: `inmemory_cache_restapi.go`
for the LRU engine, and the two-tier `UnifiedCache` variant composing an
in-memory map tier with a remote Redis-backed tier).

Time is modelled as a natural number clock `now` passed into each
operation (the Go code reads `time.Now()` inside every operation); a
`ttl` duration is a natural number and `time.Now().Add(ttl)` becomes
`now + ttl`.  Go `interface{}` payloads are modelled by `GoVal`, which
includes the `nil` interface value alongside integers and strings.
-/

namespace Spec2Proof

/-- A Go `interface{}` payload: nil, an integer, or a string. -/
inductive GoVal where
  | nil : GoVal
  | int (n : Int) : GoVal
  | str (s : String) : GoVal
deriving DecidableEq, Repr

/-- The engine's single error outcome (`fmt.Errorf("key not found")`). -/
inductive CacheError where
  | keyNotFound : CacheError
deriving DecidableEq, Repr

/-! ## The LRU + TTL engine (`inmemory_cache_restapi.go`)

The Go struct keeps a map `key -> *list.Element` and a doubly linked list
`lruList` (front = most recently used); every list node is also a map
entry and vice versa, so the state is modelled by the list alone, each
element an `Entry`.  Go's `maxSize` is an `int`, hence `Int` here. -/

/-- A cache entry: key, value and absolute expiry instant (field `ttl`
holds `time.Now().Add(ttl)` at write time, as in the Go `entry` struct). -/
structure Entry where
  key : String
  value : GoVal
  ttl : Nat
deriving DecidableEq, Repr

/-- The LRU cache state: capacity bound and recency list, front = most
recently used, back = least recently used. -/
structure InMemoryCache where
  maxSize : Int
  lruList : List Entry
deriving DecidableEq, Repr

/-- Go `NewInMemoryCache`: empty cache with the given maximum size. -/
def NewInMemoryCache (maxSize : Int) : InMemoryCache :=
  { maxSize := maxSize, lruList := [] }

/-- Go `removeElement`: remove the (unique) list node holding `key` from the
linked list and the map.  In the Go code the node to remove is handed over
directly; here it is identified by its key, and `eraseP` removes that one
node, leaving all other entries in place and in order. -/
def InMemoryCache.removeElement (c : InMemoryCache) (key : String) : InMemoryCache :=
  { c with lruList := c.lruList.eraseP (fun e => e.key == key) }

/-- Go `evict`: remove the back (least recently used) node of the recency
list; a no-op when the list is empty (`lruList.Back() == nil`). -/
def InMemoryCache.evict (c : InMemoryCache) : InMemoryCache :=
  { c with lruList := c.lruList.dropLast }

/-- Go `Set`: if the key already resides, update its value and expiry and
move its node to the front; otherwise, when `len(cache) >= maxSize`,
evict the LRU tail, then push a fresh entry at the front.  Returns the
Go `error` result (always `nil`, modelled `none`). -/
def InMemoryCache.Set (c : InMemoryCache) (now : Nat) (key : String) (value : GoVal)
    (ttl : Nat) : Option CacheError × InMemoryCache :=
  if c.lruList.any (fun e => e.key == key) then
    (none, { c with
      lruList := ⟨key, value, now + ttl⟩ :: c.lruList.eraseP (fun e => e.key == key) })
  else
    let c' := if (c.lruList.length : Int) ≥ c.maxSize then c.evict else c
    (none, { c' with lruList := ⟨key, value, now + ttl⟩ :: c'.lruList })

/-- Go `Get`: look the key up; if found and `entry.ttl.After(now)` (strictly
later expiry) move it to the front and return its value, otherwise remove
the expired node and fall through to the not-found error; absent keys
yield the not-found error with the state untouched. -/
def InMemoryCache.Get (c : InMemoryCache) (now : Nat) (key : String) :
    Except CacheError GoVal × InMemoryCache :=
  match c.lruList.find? (fun e => e.key == key) with
  | some e =>
    if now < e.ttl then
      (Except.ok e.value,
       { c with lruList := e :: c.lruList.eraseP (fun x => x.key == key) })
    else
      (Except.error CacheError.keyNotFound, c.removeElement key)
  | none => (Except.error CacheError.keyNotFound, c)

/-- Go `Delete`: remove the node if the key resides (success), otherwise
report the not-found error and leave the state untouched. -/
def InMemoryCache.Delete (c : InMemoryCache) (key : String) :
    Option CacheError × InMemoryCache :=
  if c.lruList.any (fun e => e.key == key) then
    (none, c.removeElement key)
  else
    (some CacheError.keyNotFound, c)

/-- One engine operation, tagged with the clock value at which it runs
(`Delete` never reads the clock). -/
inductive Op where
  | set (now : Nat) (key : String) (value : GoVal) (ttl : Nat) : Op
  | get (now : Nat) (key : String) : Op
  | del (key : String) : Op
deriving DecidableEq, Repr

/-- Apply one operation, keeping only the state component. -/
def InMemoryCache.applyOp (c : InMemoryCache) : Op → InMemoryCache
  | Op.set now key value ttl => (c.Set now key value ttl).2
  | Op.get now key => (c.Get now key).2
  | Op.del key => (c.Delete key).2

/-- Run a sequence of operations from a given state. -/
def InMemoryCache.run (c : InMemoryCache) : List Op → InMemoryCache
  | [] => c
  | op :: ops => (c.applyOp op).run ops

/-- The size every reachable state respects: `maxSize` when positive,
`1` otherwise (a non-positive `maxSize` makes `len >= maxSize` always
true, so every brand-new-key insert evicts first). -/
def capBound (m : Int) : Nat := max 1 m.toNat

/-! ### Size-bound lemmas -/

theorem applyOp_maxSize (c : InMemoryCache) (op : Op) :
    (c.applyOp op).maxSize = c.maxSize := by
  cases op <;>
    simp only [InMemoryCache.applyOp, InMemoryCache.Set, InMemoryCache.Get,
      InMemoryCache.Delete, InMemoryCache.evict, InMemoryCache.removeElement] <;>
    (try split) <;> (try split) <;> rfl

theorem run_maxSize (c : InMemoryCache) (ops : List Op) :
    (c.run ops).maxSize = c.maxSize := by
  induction ops generalizing c with
  | nil => rfl
  | cons op ops ih =>
    rw [InMemoryCache.run, ih, applyOp_maxSize]

theorem length_applyOp_le (c : InMemoryCache) (op : Op)
    (h : c.lruList.length ≤ capBound c.maxSize) :
    (c.applyOp op).lruList.length ≤ capBound c.maxSize := by
  have hbound : 1 ≤ capBound c.maxSize := le_max_left _ _
  cases op with
  | set now key value ttl =>
    simp only [InMemoryCache.applyOp, InMemoryCache.Set]
    split
    · rename_i hany
      simp only [List.length_cons, List.length_eraseP, hany, if_pos]
      have : 1 ≤ c.lruList.length := by
        rcases List.any_eq_true.mp hany with ⟨e, he, _⟩
        exact List.length_pos.mpr (List.ne_nil_of_mem he)
      omega
    · split
      · rename_i hge
        simp only [InMemoryCache.evict, List.length_cons, List.length_dropLast]
        omega
      · rename_i hlt
        simp only [List.length_cons]
        simp only [capBound] at h ⊢
        omega
  | get now key =>
    simp only [InMemoryCache.applyOp, InMemoryCache.Get]
    split
    · rename_i e hfind
      split
      · simp only [List.length_cons, List.length_eraseP,
          List.any_eq_true.mpr ⟨e, List.mem_of_find?_eq_some hfind,
            List.find?_some hfind⟩, if_pos]
        have : 1 ≤ c.lruList.length :=
          List.length_pos.mpr (List.ne_nil_of_mem (List.mem_of_find?_eq_some hfind))
        omega
      · simp only [InMemoryCache.removeElement]
        exact le_trans (List.length_eraseP_le _) h
    · exact h
  | del key =>
    simp only [InMemoryCache.applyOp, InMemoryCache.Delete]
    split
    · simp only [InMemoryCache.removeElement]
      exact le_trans (List.length_eraseP_le _) h
    · exact h

theorem length_run_le (c : InMemoryCache) (ops : List Op)
    (h : c.lruList.length ≤ capBound c.maxSize) :
    (c.run ops).lruList.length ≤ capBound c.maxSize := by
  induction ops generalizing c with
  | nil => exact h
  | cons op ops ih =>
    rw [InMemoryCache.run]
    have h1 := length_applyOp_le c op h
    have h2 := ih (c.applyOp op) (by rw [applyOp_maxSize]; exact h1)
    rwa [applyOp_maxSize] at h2

/-- C1: with positive capacity `N`, every state reached from the empty
cache by a sequence of operations has at most `N` resident entries;
since the claim quantifies over all finite sequences, the bound after
every intermediate operation is the instance at the corresponding
prefix. -/
theorem capacity_invariant (N : Nat) (hN : 0 < N) (ops : List Op) :
    ((NewInMemoryCache N).run ops).lruList.length ≤ N := by
  have hcap : capBound (N : Int) = N := by
    simp only [capBound]
    omega
  have h := length_run_le (NewInMemoryCache N) ops
    (by simp [NewInMemoryCache])
  simpa [NewInMemoryCache, hcap] using h

/-- Witness for `capacity_invariant` at `N = 2` and a concrete
operation sequence that overflows the capacity. -/
theorem capacity_invariant_witness :
    ((NewInMemoryCache 2).run
      [Op.set 0 "a" (GoVal.int 1) 9, Op.set 1 "b" (GoVal.int 2) 9,
       Op.set 2 "c" (GoVal.int 3) 9, Op.get 3 "b",
       Op.set 4 "d" (GoVal.int 4) 9]).lruList.length ≤ 2 :=
  capacity_invariant 2 (by decide)
    [Op.set 0 "a" (GoVal.int 1) 9, Op.set 1 "b" (GoVal.int 2) 9,
     Op.set 2 "c" (GoVal.int 3) 9, Op.get 3 "b",
     Op.set 4 "d" (GoVal.int 4) 9]

/-- C2: a `Set` of a brand-new key that finds the cache at capacity
drops exactly the back (least-recently-used) node of the recency list —
no expiry test occurs — and pushes the new entry at the front; and in
the concrete capacity-3 scenario insert a,b,c, Get a, insert d, the
evicted key is b (the new LRU), leaving keys d,a,c in recency order. -/
theorem lru_evicts_tail (c : InMemoryCache) (now : Nat) (k : String) (v : GoVal)
    (ttl : Nat) (hnew : c.lruList.any (fun e => e.key == k) = false)
    (hfull : (c.lruList.length : Int) = c.maxSize) :
    ((c.Set now k v ttl).2.lruList = ⟨k, v, now + ttl⟩ :: c.lruList.dropLast)
  ∧ ((NewInMemoryCache 3).run
      [Op.set 0 "a" (GoVal.int 1) 9, Op.set 0 "b" (GoVal.int 2) 9,
       Op.set 0 "c" (GoVal.int 3) 9, Op.get 1 "a",
       Op.set 2 "d" (GoVal.int 4) 9]).lruList.map Entry.key = ["d", "a", "c"] := by
  refine ⟨?_, by decide⟩
  simp only [InMemoryCache.Set]
  split
  · rename_i hany
    rw [hnew] at hany
    exact absurd hany (by simp)
  · rw [if_pos (by omega)]
    rfl

/-- Witness for `lru_evicts_tail`: a full 2-entry cache receives a new
key and exactly the back entry is dropped. -/
theorem lru_evicts_tail_witness :
    ((⟨2, [⟨"x", GoVal.int 1, 5⟩, ⟨"y", GoVal.int 2, 5⟩]⟩ :
        InMemoryCache).Set 0 "z" (GoVal.int 3) 7).2.lruList
      = [⟨"z", GoVal.int 3, 7⟩, ⟨"x", GoVal.int 1, 5⟩]
  ∧ ((NewInMemoryCache 3).run
      [Op.set 0 "a" (GoVal.int 1) 9, Op.set 0 "b" (GoVal.int 2) 9,
       Op.set 0 "c" (GoVal.int 3) 9, Op.get 1 "a",
       Op.set 2 "d" (GoVal.int 4) 9]).lruList.map Entry.key = ["d", "a", "c"] :=
  lru_evicts_tail ⟨2, [⟨"x", GoVal.int 1, 5⟩, ⟨"y", GoVal.int 2, 5⟩]⟩ 0 "z"
    (GoVal.int 3) 7 (by decide) (by decide)

/-- C3: `Get` on an absent key reports not-found and changes nothing;
on a resident entry with `expires_at ≤ now` it removes exactly that
entry (the size strictly decreases) and reports not-found; on a live
entry it moves the entry to the front, returns its stored value
unchanged, and keeps the size. -/
theorem get_semantics (c : InMemoryCache) (now : Nat) (k : String) :
    (c.lruList.find? (fun e => e.key == k) = none →
        c.Get now k = (Except.error CacheError.keyNotFound, c))
  ∧ (∀ e, c.lruList.find? (fun e => e.key == k) = some e → e.ttl ≤ now →
        (c.Get now k).1 = Except.error CacheError.keyNotFound
      ∧ (c.Get now k).2 = c.removeElement k
      ∧ (c.Get now k).2.lruList.length + 1 = c.lruList.length)
  ∧ (∀ e, c.lruList.find? (fun e => e.key == k) = some e → now < e.ttl →
        (c.Get now k).1 = Except.ok e.value
      ∧ (c.Get now k).2.lruList = e :: (c.removeElement k).lruList
      ∧ (c.Get now k).2.lruList.length = c.lruList.length) := by
  refine ⟨?_, ?_, ?_⟩
  · intro hfind
    simp only [InMemoryCache.Get, hfind]
  · intro e hfind hexp
    have hmem := List.mem_of_find?_eq_some hfind
    have hpos : 1 ≤ c.lruList.length := List.length_pos.mpr (List.ne_nil_of_mem hmem)
    have hpa := List.find?_some hfind
    have hany : c.lruList.any (fun x => x.key == k) = true :=
      List.any_eq_true.mpr ⟨e, hmem, hpa⟩
    have hget : c.Get now k = (Except.error CacheError.keyNotFound, c.removeElement k) := by
      simp only [InMemoryCache.Get, hfind, if_neg (by omega : ¬ now < e.ttl)]
    rw [hget]
    refine ⟨rfl, rfl, ?_⟩
    simp only [InMemoryCache.removeElement, List.length_eraseP, hany, if_pos]
    omega
  · intro e hfind hlive
    have hmem := List.mem_of_find?_eq_some hfind
    have hpos : 1 ≤ c.lruList.length := List.length_pos.mpr (List.ne_nil_of_mem hmem)
    have hpa := List.find?_some hfind
    have hany : c.lruList.any (fun x => x.key == k) = true :=
      List.any_eq_true.mpr ⟨e, hmem, hpa⟩
    have hget : c.Get now k = (Except.ok e.value,
        { c with lruList := e :: c.lruList.eraseP (fun x => x.key == k) }) := by
      simp only [InMemoryCache.Get, hfind, if_pos hlive]
    rw [hget]
    refine ⟨rfl, rfl, ?_⟩
    simp only [List.length_cons, List.length_eraseP, hany, if_pos]
    omega

/-- Witness for `get_semantics`: the live branch at a concrete one-entry
cache returns the stored value and keeps the entry at the front. -/
theorem get_semantics_witness :
    ((⟨3, [⟨"a", GoVal.int 5, 10⟩]⟩ : InMemoryCache).Get 2 "a").1
        = Except.ok (GoVal.int 5)
  ∧ ((⟨3, [⟨"a", GoVal.int 5, 10⟩]⟩ : InMemoryCache).Get 2 "a").2.lruList
        = ⟨"a", GoVal.int 5, 10⟩ ::
          ((⟨3, [⟨"a", GoVal.int 5, 10⟩]⟩ : InMemoryCache).removeElement "a").lruList
  ∧ ((⟨3, [⟨"a", GoVal.int 5, 10⟩]⟩ : InMemoryCache).Get 2 "a").2.lruList.length
        = ((⟨3, [⟨"a", GoVal.int 5, 10⟩]⟩ : InMemoryCache)).lruList.length :=
  (get_semantics ⟨3, [⟨"a", GoVal.int 5, 10⟩]⟩ 2 "a").2.2
    ⟨"a", GoVal.int 5, 10⟩ (by decide) (by decide)

/-- C4: a `Set` on a resident key overwrites the value, refreshes the
expiry to `now + ttl`, moves the key to the front, keeps the resident
count, and the remaining entries are the original list with only that
key's node removed — same values, expiries and relative order (the tail
of the result is a sublist of the original list). -/
theorem put_overwrite (c : InMemoryCache) (now : Nat) (k : String) (v : GoVal)
    (ttl : Nat) (h : c.lruList.any (fun e => e.key == k) = true) :
    (c.Set now k v ttl).1 = none
  ∧ (c.Set now k v ttl).2.lruList
      = ⟨k, v, now + ttl⟩ :: c.lruList.eraseP (fun e => e.key == k)
  ∧ (c.Set now k v ttl).2.lruList.length = c.lruList.length
  ∧ (c.Set now k v ttl).2.lruList.tail.Sublist c.lruList := by
  have hpos : 1 ≤ c.lruList.length := by
    rcases List.any_eq_true.mp h with ⟨e, he, _⟩
    exact List.length_pos.mpr (List.ne_nil_of_mem he)
  have hset : c.Set now k v ttl = (none, { c with
      lruList := ⟨k, v, now + ttl⟩ :: c.lruList.eraseP (fun e => e.key == k) }) := by
    simp only [InMemoryCache.Set, h, if_pos]
  rw [hset]
  refine ⟨rfl, rfl, ?_, ?_⟩
  · simp only [List.length_cons, List.length_eraseP, h, if_pos]
    omega
  · simpa using List.eraseP_sublist c.lruList

/-- Witness for `put_overwrite` on a two-entry cache, overwriting the
back entry. -/
theorem put_overwrite_witness :
    ((⟨2, [⟨"x", GoVal.int 1, 5⟩, ⟨"y", GoVal.int 2, 5⟩]⟩ :
        InMemoryCache).Set 3 "y" (GoVal.str "new") 4).1 = none
  ∧ ((⟨2, [⟨"x", GoVal.int 1, 5⟩, ⟨"y", GoVal.int 2, 5⟩]⟩ :
        InMemoryCache).Set 3 "y" (GoVal.str "new") 4).2.lruList
      = [⟨"y", GoVal.str "new", 7⟩, ⟨"x", GoVal.int 1, 5⟩]
  ∧ ((⟨2, [⟨"x", GoVal.int 1, 5⟩, ⟨"y", GoVal.int 2, 5⟩]⟩ :
        InMemoryCache).Set 3 "y" (GoVal.str "new") 4).2.lruList.length = 2
  ∧ ((⟨2, [⟨"x", GoVal.int 1, 5⟩, ⟨"y", GoVal.int 2, 5⟩]⟩ :
        InMemoryCache).Set 3 "y" (GoVal.str "new") 4).2.lruList.tail.Sublist
      [⟨"x", GoVal.int 1, 5⟩, ⟨"y", GoVal.int 2, 5⟩] :=
  put_overwrite ⟨2, [⟨"x", GoVal.int 1, 5⟩, ⟨"y", GoVal.int 2, 5⟩]⟩ 3 "y"
    (GoVal.str "new") 4 (by decide)

/-- C5: a `Set` with `ttl = 0` stores an entry at the front whose expiry
equals the write instant (it occupies a slot), and any `Get` of that key
at a strictly later time reports not-found and removes exactly that
entry. -/
theorem zero_ttl_unobservable (c : InMemoryCache) (now nowLater : Nat) (k : String)
    (v : GoVal) (h : now < nowLater) :
    (c.Set now k v 0).2.lruList.head? = some ⟨k, v, now⟩
  ∧ 1 ≤ (c.Set now k v 0).2.lruList.length
  ∧ ((c.Set now k v 0).2.Get nowLater k).1 = Except.error CacheError.keyNotFound
  ∧ ((c.Set now k v 0).2.Get nowLater k).2.lruList = (c.Set now k v 0).2.lruList.tail := by
  obtain ⟨rest, hrest⟩ : ∃ rest, (c.Set now k v 0).2.lruList = ⟨k, v, now⟩ :: rest := by
    simp only [InMemoryCache.Set]
    split
    · exact ⟨_, rfl⟩
    · split <;> exact ⟨_, rfl⟩
  have hfind : (c.Set now k v 0).2.lruList.find? (fun e => e.key == k)
      = some ⟨k, v, now⟩ := by
    rw [hrest]
    exact List.find?_cons_of_pos _ (by simp)
  refine ⟨by rw [hrest]; rfl, by rw [hrest]; simp, ?_, ?_⟩
  · simp only [InMemoryCache.Get, hfind, if_neg (by omega : ¬ nowLater < now)]
  · simp only [InMemoryCache.Get, hfind, if_neg (by omega : ¬ nowLater < now),
      InMemoryCache.removeElement]
    rw [hrest, List.eraseP_cons_of_pos (by simp)]
    rfl

/-- Witness for `zero_ttl_unobservable`: write key a with zero TTL at
time 4 into the empty cache, then Get it at time 5. -/
theorem zero_ttl_unobservable_witness :
    ((NewInMemoryCache 3).Set 4 "a" (GoVal.int 7) 0).2.lruList.head?
        = some ⟨"a", GoVal.int 7, 4⟩
  ∧ 1 ≤ ((NewInMemoryCache 3).Set 4 "a" (GoVal.int 7) 0).2.lruList.length
  ∧ (((NewInMemoryCache 3).Set 4 "a" (GoVal.int 7) 0).2.Get 5 "a").1
        = Except.error CacheError.keyNotFound
  ∧ (((NewInMemoryCache 3).Set 4 "a" (GoVal.int 7) 0).2.Get 5 "a").2.lruList
        = ((NewInMemoryCache 3).Set 4 "a" (GoVal.int 7) 0).2.lruList.tail :=
  zero_ttl_unobservable (NewInMemoryCache 3) 4 5 "a" (GoVal.int 7) (by decide)

/-- C6: `Delete` of a resident key removes exactly its entry (and with
it its recency node) and reports success; `Delete` of an absent key
reports not-found and returns the state bit-for-bit unchanged. -/
theorem delete_semantics (c : InMemoryCache) (k : String) :
    (c.lruList.any (fun e => e.key == k) = false →
        c.Delete k = (some CacheError.keyNotFound, c))
  ∧ (c.lruList.any (fun e => e.key == k) = true →
        (c.Delete k).1 = none
      ∧ (c.Delete k).2.lruList = c.lruList.eraseP (fun e => e.key == k)
      ∧ (c.Delete k).2.lruList.length + 1 = c.lruList.length) := by
  constructor
  · intro habs
    simp only [InMemoryCache.Delete, habs]
    rfl
  · intro h
    have hpos : 1 ≤ c.lruList.length := by
      rcases List.any_eq_true.mp h with ⟨e, he, _⟩
      exact List.length_pos.mpr (List.ne_nil_of_mem he)
    have hdel : c.Delete k = (none, c.removeElement k) := by
      simp only [InMemoryCache.Delete, h, if_pos]
    rw [hdel]
    refine ⟨rfl, rfl, ?_⟩
    simp only [InMemoryCache.removeElement, List.length_eraseP, h, if_pos]
    omega

/-- Witness for `delete_semantics`: deleting absent key b from a
one-entry cache leaves it unchanged and reports not-found. -/
theorem delete_semantics_witness :
    (⟨2, [⟨"a", GoVal.int 1, 5⟩]⟩ : InMemoryCache).Delete "b"
      = (some CacheError.keyNotFound, ⟨2, [⟨"a", GoVal.int 1, 5⟩]⟩) :=
  (delete_semantics ⟨2, [⟨"a", GoVal.int 1, 5⟩]⟩ "b").1 (by decide)

/-- C7: `Set` returns `nil` on every input — both of its return paths
return success — while the not-found error is producible by `Get` and by
`Delete`. -/
theorem put_never_fails :
    (∀ (c : InMemoryCache) (now : Nat) (k : String) (v : GoVal) (ttl : Nat),
        (c.Set now k v ttl).1 = none)
  ∧ (∃ (c : InMemoryCache) (now : Nat) (k : String),
        (c.Get now k).1 = Except.error CacheError.keyNotFound)
  ∧ (∃ (c : InMemoryCache) (k : String),
        (c.Delete k).1 = some CacheError.keyNotFound) := by
  refine ⟨?_, ⟨NewInMemoryCache 1, 0, "a", rfl⟩,
    ⟨NewInMemoryCache 1, "a", rfl⟩⟩
  intro c now k v ttl
  simp only [InMemoryCache.Set]
  split
  · rfl
  · rfl

/-- C9: with a non-positive `maxSize`, `len(cache) >= maxSize` holds
before every brand-new-key insert, so `Set` always evicts the recency
tail first (a no-op on the empty list) and then inserts; consequently
every state reachable from the empty cache holds at most one entry, and
a single `Set` does reach exactly one entry. -/
theorem nonpositive_capacity (m : Int) (hm : m ≤ 0) (ops : List Op) :
    (((NewInMemoryCache m).run ops).lruList.length ≤ 1)
  ∧ (((NewInMemoryCache m).run [Op.set 0 "a" (GoVal.int 1) 5]).lruList.length = 1)
  ∧ (∀ (c : InMemoryCache) (now : Nat) (k : String) (v : GoVal) (ttl : Nat),
        c.maxSize = m → c.lruList.any (fun e => e.key == k) = false →
        (c.Set now k v ttl).2.lruList = ⟨k, v, now + ttl⟩ :: c.lruList.dropLast) := by
  refine ⟨?_, ?_, ?_⟩
  · have hcap : capBound m = 1 := by
      simp only [capBound]
      omega
    have h := length_run_le (NewInMemoryCache m) ops
      (by simp [NewInMemoryCache, hcap])
    simpa [NewInMemoryCache, hcap] using h
  · simp only [InMemoryCache.run, InMemoryCache.applyOp, InMemoryCache.Set,
      NewInMemoryCache, InMemoryCache.evict]
    split
    · rename_i hany
      simp at hany
    · split <;> rfl
  · intro c now k v ttl hms hnew
    simp only [InMemoryCache.Set]
    split
    · rename_i hany
      rw [hnew] at hany
      exact absurd hany (by simp)
    · rw [if_pos (by omega)]
      rfl

/-- Witness for `nonpositive_capacity` at `maxSize = 0` and a concrete
overflowing sequence, plus a concrete eviction-before-insert instance. -/
theorem nonpositive_capacity_witness :
    (((NewInMemoryCache 0).run
        [Op.set 0 "a" (GoVal.int 1) 5, Op.set 1 "b" (GoVal.int 2) 5,
         Op.set 2 "c" (GoVal.int 3) 5]).lruList.length ≤ 1)
  ∧ (((NewInMemoryCache 0).run [Op.set 0 "a" (GoVal.int 1) 5]).lruList.length = 1)
  ∧ (∀ (c : InMemoryCache) (now : Nat) (k : String) (v : GoVal) (ttl : Nat),
        c.maxSize = 0 → c.lruList.any (fun e => e.key == k) = false →
        (c.Set now k v ttl).2.lruList = ⟨k, v, now + ttl⟩ :: c.lruList.dropLast) :=
  nonpositive_capacity 0 (by decide)
    [Op.set 0 "a" (GoVal.int 1) 5, Op.set 1 "b" (GoVal.int 2) 5,
     Op.set 2 "c" (GoVal.int 3) 5]

/-! ## The two-tier variant (`UnifiedCache` program)

Its local tier is a plain map with no recency structure; the remote tier
wraps a Redis client.  The Redis server is an external system, modelled
as a key-value map from keys to the strings the client stores
(server-side TTL handling and network failures lie outside the
program).  The names live in the `TwoTier` namespace because the Go file
reuses the name `InMemoryCache`. -/

namespace TwoTier

/-- Go `CacheItem`: stored value and absolute expiry (`time.Now().Add(ttl)`). -/
structure CacheItem where
  Value : GoVal
  TTL : Nat
deriving DecidableEq, Repr

/-- The two-tier program's local `InMemoryCache`: a plain map. -/
structure InMemoryCache where
  data : String → Option CacheItem

/-- Go `NewInMemoryCache`: the empty map. -/
def NewInMemoryCache : InMemoryCache := ⟨fun _ => none⟩

/-- Go `InMemoryCache.Set`: unconditional map write of
`{Value: value, TTL: time.Now().Add(ttl)}`; always succeeds. -/
def InMemoryCache.Set (c : InMemoryCache) (now : Nat) (key : String) (value : GoVal)
    (ttl : Nat) : InMemoryCache :=
  ⟨fun k => if k = key then some ⟨value, now + ttl⟩ else c.data k⟩

/-- Go `InMemoryCache.Get`: `(nil, nil)` when the key is absent or
`item.TTL.Before(now)` (strictly earlier expiry); otherwise
`(item.Value, nil)`.  Non-destructive; the error is always `nil`. -/
def InMemoryCache.Get (c : InMemoryCache) (now : Nat) (key : String) :
    GoVal × Option CacheError :=
  match c.data key with
  | none => (GoVal.nil, none)
  | some item => if item.TTL < now then (GoVal.nil, none) else (item.Value, none)

/-- The remote Redis store: keys to stored strings. -/
def RedisStore := String → Option String

/-- Go `RedisCache.Set`: `client.Set(ctx, key, value, ttl)` on the store. -/
def RedisCache.Set (r : RedisStore) (key value : String) : RedisStore :=
  fun k => if k = key then some value else r k

/-- The numeric value of a decimal digit character. -/
def digitVal (c : Char) : Option Nat :=
  if '0' ≤ c ∧ c ≤ '9' then some (c.toNat - '0'.toNat) else none

/-- Decimal accumulation over a digit run; `none` on any non-digit. -/
def digitsVal : List Char → Nat → Option Nat
  | [], acc => some acc
  | c :: cs, acc =>
    match digitVal c with
    | some d => digitsVal cs (acc * 10 + d)
    | none => none

/-- Go `strconv.Atoi`, by the grammar it accepts: an optional sign followed
by one or more decimal digits, anything else an error (machine-width
overflow is not modelled). -/
def atoi (s : String) : Option Int :=
  match s.toList with
  | [] => none
  | '+' :: cs => if cs = [] then none else (digitsVal cs 0).map Int.ofNat
  | '-' :: cs => if cs = [] then none else (digitsVal cs 0).map (fun n => -(n : Int))
  | cs => (digitsVal cs 0).map Int.ofNat

/-- Go `RedisCache.Get`: an absent key (`redis.Nil`) yields `nil`;
otherwise the stored string goes through `strconv.Atoi`, giving an
integer on success and the raw string otherwise. -/
def RedisCache.Get (r : RedisStore) (key : String) : GoVal :=
  match r key with
  | none => GoVal.nil
  | some s =>
    match atoi s with
    | some n => GoVal.int n
    | none => GoVal.str s

/-- Go `fmt.Sprintf("%v", value)` on a `GoVal`. -/
def sprintv : GoVal → String
  | GoVal.nil => "<nil>"
  | GoVal.int n => toString n
  | GoVal.str s => s

/-- Go `UnifiedCache`: the two tiers. -/
structure UnifiedCache where
  InMemory : InMemoryCache
  Redis : RedisStore

/-- The remote branch of `UnifiedCache.Get`: fetch via `RedisCache.Get`;
if the raw value is a string, retry `strconv.Atoi` and fall back to the
string itself; anything else is returned as-is. -/
def remoteFetch (r : RedisStore) (key : String) : GoVal :=
  match RedisCache.Get r key with
  | GoVal.str s =>
    match atoi s with
    | some n => GoVal.int n
    | none => GoVal.str s
  | v => v

/-- Go `UnifiedCache.Set`: write into the in-memory tier, then write the
`%v`-formatted string into the Redis tier. -/
def UnifiedCache.Set (u : UnifiedCache) (now : Nat) (key : String) (value : GoVal)
    (ttl : Nat) : UnifiedCache :=
  { InMemory := u.InMemory.Set now key value ttl,
    Redis := RedisCache.Set u.Redis key (sprintv value) }

/-- Go `UnifiedCache.Get`: consult the in-memory tier; when
`err == nil && value != nil` return that value, otherwise fall through
to the Redis tier.  Neither path writes to a tier, so the state passes
through unchanged. -/
def UnifiedCache.Get (u : UnifiedCache) (now : Nat) (key : String) :
    GoVal × UnifiedCache :=
  if (u.InMemory.Get now key).2 = none ∧ (u.InMemory.Get now key).1 ≠ GoVal.nil then
    ((u.InMemory.Get now key).1, u)
  else
    (remoteFetch u.Redis key, u)

end TwoTier

/-- The local tier's `Get` never returns a non-nil error. -/
theorem twoTier_get_err_none (c : TwoTier.InMemoryCache) (now : Nat) (key : String) :
    (c.Get now key).2 = none := by
  rcases h : c.data key with _ | item <;>
    simp only [TwoTier.InMemoryCache.Get, h]
  split <;> rfl

/-- C8: a two-tier write stores into both tiers (the in-memory tier gets
the value with expiry `now + ttl`, the Redis tier gets the
`%v`-formatted string); a read with a local hit returns the local value,
independently of the entire remote store; a read with a local miss
returns the remote fetch; and in every case the read leaves both tiers
exactly as they were — nothing is populated back on a remote hit. -/
theorem two_tier_composition :
    (∀ (u : TwoTier.UnifiedCache) (now : Nat) (k : String) (v : GoVal) (ttl : Nat),
        (u.Set now k v ttl).InMemory.data k = some ⟨v, now + ttl⟩
      ∧ (u.Set now k v ttl).Redis k = some (TwoTier.sprintv v))
  ∧ (∀ (u : TwoTier.UnifiedCache) (now : Nat) (k : String),
        (u.InMemory.Get now k).1 ≠ GoVal.nil →
        (u.Get now k).1 = (u.InMemory.Get now k).1
      ∧ (∀ r : TwoTier.RedisStore,
          (TwoTier.UnifiedCache.Get ⟨u.InMemory, r⟩ now k).1 = (u.Get now k).1))
  ∧ (∀ (u : TwoTier.UnifiedCache) (now : Nat) (k : String),
        (u.InMemory.Get now k).1 = GoVal.nil →
        (u.Get now k).1 = TwoTier.remoteFetch u.Redis k)
  ∧ (∀ (u : TwoTier.UnifiedCache) (now : Nat) (k : String),
        (u.Get now k).2 = u) := by
  refine ⟨?_, ?_, ?_, ?_⟩
  · intro u now k v ttl
    constructor <;>
      simp [TwoTier.UnifiedCache.Set, TwoTier.InMemoryCache.Set, TwoTier.RedisCache.Set]
  · intro u now k hv
    have hcond : (u.InMemory.Get now k).2 = none ∧ (u.InMemory.Get now k).1 ≠ GoVal.nil :=
      ⟨twoTier_get_err_none u.InMemory now k, hv⟩
    constructor
    · simp only [TwoTier.UnifiedCache.Get, if_pos hcond]
    · intro r
      simp only [TwoTier.UnifiedCache.Get, if_pos hcond]
  · intro u now k hv
    have hcond : ¬((u.InMemory.Get now k).2 = none
        ∧ (u.InMemory.Get now k).1 ≠ GoVal.nil) := by
      simp [hv]
    simp only [TwoTier.UnifiedCache.Get, if_neg hcond]
  · intro u now k
    simp only [TwoTier.UnifiedCache.Get]
    split <;> rfl

/-- Witness for `two_tier_composition`: a concrete two-tier cache whose
local tier holds key a live at time 1; the local hit returns it for any
remote store, and a write lands in both tiers. -/
theorem two_tier_composition_witness :
    ((⟨TwoTier.NewInMemoryCache, fun _ => none⟩ :
        TwoTier.UnifiedCache).Set 1 "a" (GoVal.int 3) 9).InMemory.data "a"
      = some ⟨GoVal.int 3, 10⟩
  ∧ ((⟨TwoTier.NewInMemoryCache, fun _ => none⟩ :
        TwoTier.UnifiedCache).Set 1 "a" (GoVal.int 3) 9).Redis "a" = some "3"
  ∧ ((((⟨TwoTier.NewInMemoryCache, fun _ => none⟩ :
        TwoTier.UnifiedCache).Set 1 "a" (GoVal.int 3) 9).Get 2 "a").1 = GoVal.int 3) :=
  ⟨(two_tier_composition.1 ⟨TwoTier.NewInMemoryCache, fun _ => none⟩ 1 "a"
      (GoVal.int 3) 9).1,
   (two_tier_composition.1 ⟨TwoTier.NewInMemoryCache, fun _ => none⟩ 1 "a"
      (GoVal.int 3) 9).2,
   ((two_tier_composition.2.1
      ((⟨TwoTier.NewInMemoryCache, fun _ => none⟩ :
        TwoTier.UnifiedCache).Set 1 "a" (GoVal.int 3) 9) 2 "a" (by decide)).1)⟩

/-- C10: the local tier's `Get` yields `(nil, nil)` for an absent key
and for an expired key; the composed `Get` treats a nil local value as a
miss and serves the remote fetch; hence an entry whose stored value is
nil — even a live one — is never served from the local tier. -/
theorem local_nil_indistinguishable :
    (∀ (c : TwoTier.InMemoryCache) (now : Nat) (k : String),
        c.data k = none → c.Get now k = (GoVal.nil, none))
  ∧ (∀ (c : TwoTier.InMemoryCache) (now : Nat) (k : String) (item : TwoTier.CacheItem),
        c.data k = some item → item.TTL < now → c.Get now k = (GoVal.nil, none))
  ∧ (∀ (u : TwoTier.UnifiedCache) (now : Nat) (k : String),
        (u.InMemory.Get now k).1 = GoVal.nil →
        u.Get now k = (TwoTier.remoteFetch u.Redis k, u))
  ∧ (∀ (u : TwoTier.UnifiedCache) (now : Nat) (k : String) (item : TwoTier.CacheItem),
        u.InMemory.data k = some item → item.Value = GoVal.nil →
        u.Get now k = (TwoTier.remoteFetch u.Redis k, u)) := by
  have hmiss : ∀ (u : TwoTier.UnifiedCache) (now : Nat) (k : String),
      (u.InMemory.Get now k).1 = GoVal.nil →
      u.Get now k = (TwoTier.remoteFetch u.Redis k, u) := by
    intro u now k hv
    have hcond : ¬((u.InMemory.Get now k).2 = none
        ∧ (u.InMemory.Get now k).1 ≠ GoVal.nil) := by
      simp [hv]
    simp only [TwoTier.UnifiedCache.Get, if_neg hcond]
  refine ⟨?_, ?_, hmiss, ?_⟩
  · intro c now k h
    simp only [TwoTier.InMemoryCache.Get, h]
  · intro c now k item h hexp
    simp only [TwoTier.InMemoryCache.Get, h, if_pos hexp]
  · intro u now k item h hnil
    apply hmiss
    simp only [TwoTier.InMemoryCache.Get, h]
    split
    · rfl
    · exact hnil

/-- Witness for `local_nil_indistinguishable`: a local tier holding a
live nil value under key a is bypassed in favour of the remote tier,
which holds the string 7 and serves the integer 7. -/
theorem local_nil_indistinguishable_witness :
    (⟨⟨fun k => if k = "a" then some ⟨GoVal.nil, 9⟩ else none⟩,
        fun k => if k = "a" then some "7" else none⟩ :
      TwoTier.UnifiedCache).Get 1 "a"
      = (GoVal.int 7,
         ⟨⟨fun k => if k = "a" then some ⟨GoVal.nil, 9⟩ else none⟩,
          fun k => if k = "a" then some "7" else none⟩) :=
  local_nil_indistinguishable.2.2.2
    ⟨⟨fun k => if k = "a" then some ⟨GoVal.nil, 9⟩ else none⟩,
      fun k => if k = "a" then some "7" else none⟩ 1 "a"
    ⟨GoVal.nil, 9⟩ (by simp) rfl

end Spec2Proof
